import Mathlib

/-!
Verification of the binary-search oracle driver in Div-2/oracle_bs.py.

The driver recovers a 128-bit secret from an interactive oracle: it keeps a
range [L, R] starting at [2^127, 2^128 - 1], probes the upper midpoint, parses
the textual reply for its first signed decimal integer, and narrows the range
until L = R. We embed the pure core of the script: the reply parser
(parse_int_from_text, a left-to-right scan for the regex -?\d+), the probe
computation with its bit-length clamp, the per-step range update, the search
loop with its step counter and 2000-step guard, and the resource-event traces
of main for the remote and local modes. The oracle is modelled as a function
from (step index, probe value) to the reply text, which covers every possible
stateful text oracle since the driver is deterministic given the replies.
-/

set_option maxRecDepth 100000

namespace OracleBS

/-- An oracle: given the current step count and the probed number, the raw
text the interactive session returns for that query. -/
abbrev Oracle := Nat → Nat → String

/-! ### Response parser: parse_int_from_text (re.search of -?\d+) -/

/-- Numeric value of a list of decimal digit characters (leading zeros fine),
as produced by Python int() on the matched digit run. -/
def digitsVal (ds : List Char) : Nat :=
  ds.foldl (fun acc c => 10 * acc + (c.toNat - Char.toNat '0')) 0

/-- Anchored match of the regex -?\d+ at the head of the character list:
an optional minus sign immediately followed by a maximal run of digits. -/
def matchSignedInt : List Char → Option Int
  | [] => none
  | c :: rest =>
    if c = '-' then
      match rest with
      | [] => none
      | d :: _ =>
        if d.isDigit then some (-(Int.ofNat (digitsVal (rest.takeWhile Char.isDigit))))
        else none
    else if c.isDigit then some (Int.ofNat (digitsVal ((c :: rest).takeWhile Char.isDigit)))
    else none

/-- Leftmost-match scan: try the anchored match at each position, left to
right, and return the first success. This is the semantics of re.search. -/
def findFirstInt : List Char → Option Int
  | [] => none
  | c :: rest =>
    match matchSignedInt (c :: rest) with
    | some v => some v
    | none => findFirstInt rest

/-- parse_int_from_text(txt): first integer matched by re.search of -?\d+
in txt, or None when there is none. -/
def parse_int_from_text (txt : String) : Option Int :=
  findFirstInt txt.data

/-! ### Probe computation, with the Python bit_length clamp -/

/-- Fueled bit-length recursion; bitLenAux fuel n computes the bit length of
n whenever n < 2 to the fuel, which covers every value this program forms. -/
def bitLenAux : Nat → Nat → Nat
  | 0, _ => 0
  | _ + 1, 0 => 0
  | fuel + 1, n + 1 => bitLenAux fuel ((n + 1) / 2) + 1

/-- Python int.bit_length for the values this driver manipulates
(all below 2 to the 256). -/
def bit_length (n : Nat) : Nat := bitLenAux 256 n

/-- The probed number for range [L, R]: the upper midpoint
mid = (L + R + 1) / 2, clamped up to 2^127 when its bit length is not 128,
exactly as the source computes it before issuing the query. -/
def probe (L R : Nat) : Nat :=
  let mid := (L + R + 1) / 2
  if bit_length mid ≠ 128 then max mid (2 ^ 127) else mid

/-! ### One search step and the search loop -/

/-- The range update for a parsed signal v at the current probe:
v ≥ 1 keeps the upper half [mid, R], anything else keeps [L, mid - 1]. -/
def bsStep (L R : Nat) (v : Int) : Nat × Nat :=
  let mid := probe L R
  if 1 ≤ v then (mid, R) else (L, mid - 1)

/-- Result of a driver run: the returned value (the recovered secret, or
none on abort), the final step count the driver logs, and the list of
probe values actually queried, in order. -/
structure RunResult where
  result : Option Nat
  steps : Nat
  queries : List Nat
deriving DecidableEq

/-- Prepend a query to the trace of a run result. -/
def consQuery (q : Nat) (r : RunResult) : RunResult :=
  ⟨r.result, r.steps, q :: r.queries⟩

/-- The while loop of binary_search_secret. Per iteration with L < R: probe
the upper midpoint, parse the reply; an unparseable reply returns None at
once; otherwise update the range by the sign of the signal and abort with
None when the incremented step count exceeds 2000. The fuel argument only
bounds the recursion; the entry point passes 2002, which the 2000-step
guard keeps from ever running out. -/
def bsLoop (oracle : Oracle) : Nat → Nat → Nat → Nat → RunResult
  | 0, _, _, steps => ⟨none, steps, []⟩
  | fuel + 1, L, R, steps =>
    if L < R then
      match parse_int_from_text (oracle steps (probe L R)) with
      | none => ⟨none, steps + 1, [probe L R]⟩
      | some v =>
        if steps + 1 > 2000 then ⟨none, steps + 1, [probe L R]⟩
        else consQuery (probe L R)
          (bsLoop oracle fuel (bsStep L R v).1 (bsStep L R v).2 (steps + 1))
    else ⟨some L, steps, []⟩

/-- binary_search_secret: run the loop from L = 2^127, R = 2^128 - 1,
steps = 0. -/
def binary_search_secret (oracle : Oracle) : RunResult :=
  bsLoop oracle 2002 (2 ^ 127) (2 ^ 128 - 1) 0

/-! ### Resource events of main -/

/-- Resource-relevant actions of main, in program order. -/
inductive Event
  | openRemote
  | startLocal
  | submitGuess
  | closeSession
  | terminateProc
deriving DecidableEq

/-- Event trace of main in remote mode: the socket is opened, the search
runs inside a try block, and the finally clause closes the socket on every
path; the guess is submitted only when the search returned a secret. -/
def mainRemote (oracle : Oracle) : List Event :=
  match (binary_search_secret oracle).result with
  | none => [Event.openRemote, Event.closeSession]
  | some _ => [Event.openRemote, Event.submitGuess, Event.closeSession]

/-- Event trace of main in local mode: the process is spawned, and only on
the success path does main submit the guess and then call terminate; when
the search fails, main returns without terminating the child process. -/
def mainLocal (oracle : Oracle) : List Event :=
  match (binary_search_secret oracle).result with
  | none => [Event.startLocal]
  | some _ => [Event.startLocal, Event.submitGuess, Event.terminateProc]

/-! ### Helper lemmas about bit_length and probe -/

lemma bitLenAux_zero : ∀ fuel, bitLenAux fuel 0 = 0
  | 0 => rfl
  | _ + 1 => rfl

lemma bitLenAux_eq : ∀ k fuel n, k < fuel → 2 ^ k ≤ n → n < 2 ^ (k + 1) →
    bitLenAux fuel n = k + 1 := by
  intro k
  induction k with
  | zero =>
    intro fuel n hf h1 h2
    obtain ⟨f, rfl⟩ : ∃ f, fuel = f + 1 := ⟨fuel - 1, by omega⟩
    have h0 : (2 : Nat) ^ 0 = 1 := by norm_num
    have h01 : (2 : Nat) ^ 1 = 2 := by norm_num
    obtain rfl : n = 1 := by omega
    show bitLenAux (f + 1) 1 = 1
    simp [bitLenAux, bitLenAux_zero]
  | succ k ih =>
    intro fuel n hf h1 h2
    obtain ⟨f, rfl⟩ : ∃ f, fuel = f + 1 := ⟨fuel - 1, by omega⟩
    have hp : (2 : Nat) ^ (k + 1) = 2 * 2 ^ k := by ring
    have hp2 : (2 : Nat) ^ (k + 2) = 4 * 2 ^ k := by ring
    have hk1 : (1 : Nat) ≤ 2 ^ k := Nat.one_le_two_pow
    obtain ⟨m, rfl⟩ : ∃ m, n = m + 1 := ⟨n - 1, by omega⟩
    have hstep : bitLenAux (f + 1) (m + 1) = bitLenAux f ((m + 1) / 2) + 1 := by
      simp [bitLenAux]
    have hrec := ih f ((m + 1) / 2) (by omega) (by omega) (by omega)
    omega

lemma bit_length_eq_128 {n : Nat} (h1 : 2 ^ 127 ≤ n) (h2 : n < 2 ^ 128) :
    bit_length n = 128 :=
  bitLenAux_eq 127 256 n (by norm_num) h1 h2

lemma probe_eq {L R : Nat} (hL : 2 ^ 127 ≤ L) (hLR : L < R) (hR : R ≤ 2 ^ 128 - 1) :
    probe L R = (L + R + 1) / 2 := by
  have hpow : (2 : Nat) ^ 128 = 2 * 2 ^ 127 := by ring
  have h1 : 2 ^ 127 ≤ (L + R + 1) / 2 := by omega
  have h2 : (L + R + 1) / 2 < 2 ^ 128 := by omega
  simp [probe, bit_length_eq_128 h1 h2]

lemma probe_bounds {L R : Nat} (hL : 2 ^ 127 ≤ L) (hLR : L < R) (hR : R ≤ 2 ^ 128 - 1) :
    L < probe L R ∧ probe L R ≤ R := by
  rw [probe_eq hL hLR hR]
  omega

/-- Invariant preservation of one range update, for an arbitrary signal:
the lower end stays at or above 2^127, the upper end at or below
2^128 - 1, the range stays ordered, and its width at least halves. -/
lemma bsStep_inv {L R : Nat} (v : Int)
    (hL : 2 ^ 127 ≤ L) (hLR : L < R) (hR : R ≤ 2 ^ 128 - 1) :
    2 ^ 127 ≤ (bsStep L R v).1 ∧ (bsStep L R v).2 ≤ 2 ^ 128 - 1 ∧
    (bsStep L R v).1 ≤ (bsStep L R v).2 ∧
    (bsStep L R v).2 - (bsStep L R v).1 ≤ (R - L) / 2 := by
  have hpe := probe_eq hL hLR hR
  by_cases hvs : (1 : Int) ≤ v <;> simp [bsStep, hvs] <;> omega

/-! ### Loop run lemmas -/

/-- A run of the loop against a truthful oracle: from any state whose range
contains the secret, lies in the 128-bit window and has width below 2^k,
with enough step budget and fuel, the loop returns the secret after at most
k further iterations. -/
lemma bsLoop_truthful (oracle : Oracle) (secret : Nat)
    (ht : ∀ s p, ∃ v : Int, parse_int_from_text (oracle s p) = some v ∧ (1 ≤ v ↔ p ≤ secret)) :
    ∀ k fuel L R steps, 2 ^ 127 ≤ L → R ≤ 2 ^ 128 - 1 → L ≤ secret → secret ≤ R →
      R - L < 2 ^ k → steps + k ≤ 2000 → k < fuel →
      ∃ n ≤ k, (bsLoop oracle fuel L R steps).result = some secret ∧
        (bsLoop oracle fuel L R steps).steps = steps + n := by
  intro k
  induction k with
  | zero =>
    intro fuel L R steps hL hR hs1 hs2 hgap _ hfuel
    obtain ⟨f, rfl⟩ : ∃ f, fuel = f + 1 := ⟨fuel - 1, by omega⟩
    have h0 : (2 : Nat) ^ 0 = 1 := by norm_num
    have hLR : ¬ L < R := by omega
    have hLs : L = secret := by omega
    subst hLs
    exact ⟨0, le_refl 0, by simp [bsLoop, hLR], by simp [bsLoop, hLR]⟩
  | succ k ih =>
    intro fuel L R steps hL hR hs1 hs2 hgap hsteps hfuel
    obtain ⟨f, rfl⟩ : ∃ f, fuel = f + 1 := ⟨fuel - 1, by omega⟩
    by_cases hLR : L < R
    · have hpe := probe_eq hL hLR hR
      have hpb := probe_bounds hL hLR hR
      obtain ⟨v, hv, hiff⟩ := ht steps (probe L R)
      have hguard : ¬ (steps + 1 > 2000) := by omega
      have hpow : (2 : Nat) ^ (k + 1) = 2 * 2 ^ k := by ring
      by_cases hvs : (1 : Int) ≤ v
      · have hle : probe L R ≤ secret := hiff.mp hvs
        have hstep : bsStep L R v = (probe L R, R) := by simp [bsStep, hvs]
        obtain ⟨n, hn, hres, hst⟩ := ih f (probe L R) R (steps + 1)
          (by omega) hR hle hs2 (by omega) (by omega) (by omega)
        refine ⟨n + 1, by omega, ?_, ?_⟩ <;>
          simp [bsLoop, hLR, hv, hguard, hstep, consQuery, hres, hst] <;> omega
      · have hgt : ¬ probe L R ≤ secret := fun hh => hvs (hiff.mpr hh)
        have hstep : bsStep L R v = (L, probe L R - 1) := by simp [bsStep, hvs]
        obtain ⟨n, hn, hres, hst⟩ := ih f L (probe L R - 1) (steps + 1)
          hL (by omega) hs1 (by omega) (by omega) (by omega) (by omega)
        refine ⟨n + 1, by omega, ?_, ?_⟩ <;>
          simp [bsLoop, hLR, hv, hguard, hstep, consQuery, hres, hst] <;> omega
    · have hLs : L = secret := by omega
      subst hLs
      exact ⟨0, by omega, by simp [bsLoop, hLR], by simp [bsLoop, hLR]⟩

/-- A run of the loop against any oracle whose replies always parse: from
any ordered in-window state of width below 2^k, with enough budget and
fuel, the loop returns some value after at most k further iterations. -/
lemma bsLoop_parseable (oracle : Oracle)
    (hp : ∀ s p, parse_int_from_text (oracle s p) ≠ none) :
    ∀ k fuel L R steps, 2 ^ 127 ≤ L → R ≤ 2 ^ 128 - 1 → L ≤ R →
      R - L < 2 ^ k → steps + k ≤ 2000 → k < fuel →
      ∃ n ≤ k, (bsLoop oracle fuel L R steps).result.isSome ∧
        (bsLoop oracle fuel L R steps).steps = steps + n := by
  intro k
  induction k with
  | zero =>
    intro fuel L R steps hL hR hord hgap _ hfuel
    obtain ⟨f, rfl⟩ : ∃ f, fuel = f + 1 := ⟨fuel - 1, by omega⟩
    have h0 : (2 : Nat) ^ 0 = 1 := by norm_num
    have hLR : ¬ L < R := by omega
    exact ⟨0, le_refl 0, by simp [bsLoop, hLR], by simp [bsLoop, hLR]⟩
  | succ k ih =>
    intro fuel L R steps hL hR hord hgap hsteps hfuel
    obtain ⟨f, rfl⟩ : ∃ f, fuel = f + 1 := ⟨fuel - 1, by omega⟩
    by_cases hLR : L < R
    · rcases hv : parse_int_from_text (oracle steps (probe L R)) with _ | v
      · exact absurd hv (hp steps (probe L R))
      · have hinv := bsStep_inv v hL hLR hR
        have hguard : ¬ (steps + 1 > 2000) := by omega
        have hpow : (2 : Nat) ^ (k + 1) = 2 * 2 ^ k := by ring
        obtain ⟨n, hn, hres, hst⟩ := ih f (bsStep L R v).1 (bsStep L R v).2 (steps + 1)
          hinv.1 hinv.2.1 hinv.2.2.1 (by omega) (by omega) (by omega)
        refine ⟨n + 1, by omega, ?_, ?_⟩ <;>
          simp [bsLoop, hLR, hv, hguard, consQuery, hres, hst] <;> omega
    · exact ⟨0, by omega, by simp [bsLoop, hLR], by simp [bsLoop, hLR]⟩

/-- Every probe value the loop ever queries from an in-window state lies in
the 128-bit window, whatever the oracle replies. -/
lemma bsLoop_queries (oracle : Oracle) :
    ∀ fuel L R steps, 2 ^ 127 ≤ L → R ≤ 2 ^ 128 - 1 →
      ∀ q ∈ (bsLoop oracle fuel L R steps).queries, 2 ^ 127 ≤ q ∧ q ≤ 2 ^ 128 - 1 := by
  intro fuel
  induction fuel with
  | zero =>
    intro L R steps hL hR q hq
    simp [bsLoop] at hq
  | succ f ih =>
    intro L R steps hL hR q hq
    by_cases hLR : L < R
    · have hpe := probe_eq hL hLR hR
      have hpb := probe_bounds hL hLR hR
      rcases hv : parse_int_from_text (oracle steps (probe L R)) with _ | v
      · simp [bsLoop, hLR, hv] at hq
        subst hq
        exact ⟨by omega, by omega⟩
      · by_cases hguard : steps + 1 > 2000
        · simp [bsLoop, hLR, hv, hguard] at hq
          subst hq
          exact ⟨by omega, by omega⟩
        · have hinv := bsStep_inv v hL hLR hR
          simp [bsLoop, hLR, hv, hguard, consQuery] at hq
          rcases hq with rfl | hq
          · exact ⟨by omega, by omega⟩
          · exact ih (bsStep L R v).1 (bsStep L R v).2 (steps + 1) hinv.1 hinv.2.1 q hq
    · simp [bsLoop, hLR] at hq

/-! ### Claim theorems -/

/-- Claim C1: for every oracle that answers truthfully whether the probe is
at most the secret, for any fixed secret in [2^127, 2^128 - 1],
binary_search_secret terminates with low = high equal to that secret and
returns it, using at most 128 queries. -/
theorem binary_search_recovers_secret (secret : Nat) (oracle : Oracle)
    (h1 : 2 ^ 127 ≤ secret) (h2 : secret ≤ 2 ^ 128 - 1)
    (ht : ∀ s p, ∃ v : Int, parse_int_from_text (oracle s p) = some v ∧ (1 ≤ v ↔ p ≤ secret)) :
    (binary_search_secret oracle).result = some secret ∧
    (binary_search_secret oracle).steps ≤ 128 := by
  have hpow : (2 : Nat) ^ 128 = 2 * 2 ^ 127 := by ring
  simp only [binary_search_secret]
  obtain ⟨n, hn, hres, hst⟩ := bsLoop_truthful oracle secret ht 127 2002
    (2 ^ 127) (2 ^ 128 - 1) 0 (le_refl _) (le_refl _) h1 h2 (by omega) (by omega) (by norm_num)
  exact ⟨hres, by omega⟩

/-- Truthful stub oracle with secret 2^127 + 12345, used as concrete input
for the claim C1 theorem. -/
def stubOracle : Oracle := fun _ p => if p ≤ 2 ^ 127 + 12345 then "1" else "0"

/-- Witness for claim C1 at the stub oracle with secret 2^127 + 12345. -/
theorem binary_search_recovers_secret_witness :
    (binary_search_secret stubOracle).result = some (2 ^ 127 + 12345) ∧
    (binary_search_secret stubOracle).steps ≤ 128 :=
  binary_search_recovers_secret (2 ^ 127 + 12345) stubOracle (by norm_num) (by norm_num)
    (by
      intro s p
      by_cases h : p ≤ 2 ^ 127 + 12345
      · exact ⟨1, by simp only [stubOracle, if_pos h]; decide, iff_of_true le_rfl h⟩
      · exact ⟨0, by simp only [stubOracle, if_neg h]; decide, iff_of_false (by decide) h⟩)

/-- Claim C2: a step of the search taken from a state that contains the
secret, under a truthful signal for the probed midpoint, keeps the secret
inside the range, keeps the range ordered, and strictly shrinks its width. -/
theorem bs_step_invariant (secret L R : Nat) (v : Int)
    (hL : 2 ^ 127 ≤ L) (hR : R ≤ 2 ^ 128 - 1) (hLR : L < R)
    (hs1 : L ≤ secret) (hs2 : secret ≤ R)
    (htruth : 1 ≤ v ↔ probe L R ≤ secret) :
    (bsStep L R v).1 ≤ secret ∧ secret ≤ (bsStep L R v).2 ∧
    (bsStep L R v).1 ≤ (bsStep L R v).2 ∧
    (bsStep L R v).2 - (bsStep L R v).1 < R - L := by
  have hpe := probe_eq hL hLR hR
  by_cases hvs : (1 : Int) ≤ v
  · have hle := htruth.mp hvs
    simp only [bsStep, if_pos hvs]
    refine ⟨hle, hs2, ?_, ?_⟩ <;> omega
  · have hgt : ¬ probe L R ≤ secret := fun hh => hvs (htruth.mpr hh)
    simp only [bsStep, if_neg hvs]
    refine ⟨hs1, by omega, ?_, ?_⟩ <;> omega

/-- Witness for claim C2 at range [2^127, 2^127 + 10], secret 2^127 + 5
and truthful signal 1 for the probed midpoint 2^127 + 5. -/
theorem bs_step_invariant_witness :
    (bsStep (2 ^ 127) (2 ^ 127 + 10) 1).1 ≤ 2 ^ 127 + 5 ∧
    2 ^ 127 + 5 ≤ (bsStep (2 ^ 127) (2 ^ 127 + 10) 1).2 ∧
    (bsStep (2 ^ 127) (2 ^ 127 + 10) 1).1 ≤ (bsStep (2 ^ 127) (2 ^ 127 + 10) 1).2 ∧
    (bsStep (2 ^ 127) (2 ^ 127 + 10) 1).2 - (bsStep (2 ^ 127) (2 ^ 127 + 10) 1).1 <
      (2 ^ 127 + 10) - 2 ^ 127 :=
  bs_step_invariant (2 ^ 127 + 5) (2 ^ 127) (2 ^ 127 + 10) 1 (by norm_num) (by norm_num)
    (by norm_num) (by norm_num) (by norm_num) (by decide)

/-- Claim C3: a signal of at least 1 moves the lower end up to the probed
midpoint, any other parsed value (zero and all negatives included) moves
the upper end down to midpoint minus one, and an unparseable reply makes
the loop return the distinct failure value at once. -/
theorem oracle_signal_semantics :
    (∀ (L R : Nat) (v : Int), 1 ≤ v → bsStep L R v = (probe L R, R)) ∧
    (∀ (L R : Nat) (v : Int), v < 1 → bsStep L R v = (L, probe L R - 1)) ∧
    (∀ (oracle : Oracle) (fuel L R steps : Nat), L < R →
      parse_int_from_text (oracle steps (probe L R)) = none →
      bsLoop oracle (fuel + 1) L R steps = ⟨none, steps + 1, [probe L R]⟩) := by
  refine ⟨?_, ?_, ?_⟩
  · intro L R v h
    simp [bsStep, h]
  · intro L R v h
    simp [bsStep, not_le.mpr h]
  · intro oracle fuel L R steps hLR hparse
    simp [bsLoop, hLR, hparse]

/-- Witness for claim C3 at signals 1 and 0 on the initial range and at a
letters-only reply for the unparseable case. -/
theorem oracle_signal_semantics_witness :
    bsStep (2 ^ 127) (2 ^ 128 - 1) 1 = (probe (2 ^ 127) (2 ^ 128 - 1), 2 ^ 128 - 1) ∧
    bsStep (2 ^ 127) (2 ^ 128 - 1) 0 = (2 ^ 127, probe (2 ^ 127) (2 ^ 128 - 1) - 1) ∧
    bsLoop (fun _ _ => "x") 1 (2 ^ 127) (2 ^ 128 - 1) 0 =
      ⟨none, 1, [probe (2 ^ 127) (2 ^ 128 - 1)]⟩ :=
  ⟨oracle_signal_semantics.1 _ _ 1 (by decide),
   oracle_signal_semantics.2.1 _ _ 0 (by decide),
   oracle_signal_semantics.2.2 (fun _ _ => "x") 0 _ _ 0 (by norm_num) (by decide)⟩

/-- Claim C4: when the first reply holds no parseable integer, the driver
aborts after exactly one step, returning the explicit failure value with a
single query issued and no retry. -/
theorem unparseable_first_reply_aborts (oracle : Oracle)
    (h : parse_int_from_text (oracle 0 (probe (2 ^ 127) (2 ^ 128 - 1))) = none) :
    binary_search_secret oracle = ⟨none, 1, [probe (2 ^ 127) (2 ^ 128 - 1)]⟩ := by
  have h1 : (2 : Nat) ^ 127 < 2 ^ 128 - 1 := by norm_num
  have h2 : (2002 : Nat) = 2001 + 1 := by norm_num
  have key : ∀ fuel steps,
      parse_int_from_text (oracle steps (probe (2 ^ 127) (2 ^ 128 - 1))) = none →
      bsLoop oracle (fuel + 1) (2 ^ 127) (2 ^ 128 - 1) steps =
        ⟨none, steps + 1, [probe (2 ^ 127) (2 ^ 128 - 1)]⟩ := by
    intro fuel steps hp
    simp only [bsLoop]
    rw [if_pos h1, hp]
  rw [binary_search_secret, h2]
  simpa using key 2001 0 h

/-- Witness for claim C4 at an oracle that always replies with letters. -/
theorem unparseable_first_reply_aborts_witness :
    binary_search_secret (fun _ _ => "nope") =
      ⟨none, 1, [probe (2 ^ 127) (2 ^ 128 - 1)]⟩ :=
  unparseable_first_reply_aborts (fun _ _ => "nope") (by decide)

/-- Claim C5: parse_int_from_text returns the first optionally-signed
decimal integer found scanning left to right, or no value when none
exists; in particular the four spec examples hold. -/
theorem parse_first_match :
    (∀ (cs : List Char) (v : Int), findFirstInt cs = some v →
      ∃ i, matchSignedInt (cs.drop i) = some v ∧
        ∀ j, j < i → matchSignedInt (cs.drop j) = none) ∧
    (∀ cs : List Char, findFirstInt cs = none →
      ∀ i, matchSignedInt (cs.drop i) = none) ∧
    parse_int_from_text "blah 42 blah" = some 42 ∧
    parse_int_from_text "no digits here" = none ∧
    parse_int_from_text "-7" = some (-7) ∧
    parse_int_from_text "" = none := by
  refine ⟨?_, ?_, by decide, by decide, by decide, by decide⟩
  · intro cs
    induction cs with
    | nil => intro v h; simp [findFirstInt] at h
    | cons c rest ih =>
      intro v h
      rcases hm : matchSignedInt (c :: rest) with _ | w
      · simp only [findFirstInt, hm] at h
        obtain ⟨i, hi, hj⟩ := ih v h
        refine ⟨i + 1, hi, ?_⟩
        intro j hj1
        match j with
        | 0 => exact hm
        | j + 1 => exact hj j (by omega)
      · simp only [findFirstInt, hm] at h
        refine ⟨0, ?_, fun j hj => absurd hj (Nat.not_lt_zero j)⟩
        rw [List.drop_zero, hm, h]
  · intro cs
    induction cs with
    | nil => intro _ i; cases i <;> rfl
    | cons c rest ih =>
      intro h i
      rcases hm : matchSignedInt (c :: rest) with _ | w
      · simp only [findFirstInt, hm] at h
        match i with
        | 0 => exact hm
        | i + 1 => exact ih h i
      · simp only [findFirstInt, hm] at h
        exact Option.noConfusion h

/-- Witness for claim C5: the hypothesis-bearing parts applied at the
concrete inputs a1 (a match exists) and xy (no match exists). -/
theorem parse_first_match_witness :
    (∃ i, matchSignedInt (("a1".data).drop i) = some 1 ∧
      ∀ j, j < i → matchSignedInt (("a1".data).drop j) = none) ∧
    (∀ i, matchSignedInt (("xy".data).drop i) = none) :=
  ⟨parse_first_match.1 "a1".data 1 (by decide),
   parse_first_match.2.1 "xy".data (by decide)⟩

/-- Claim C6: the probe is the upper midpoint ceil((L + R) / 2); at the
state L = 2^127, R = 2^127 + 1 it picks 2^127 + 1, and when L + 1 = R one
more step collapses the range, so the loop cannot run forever there. -/
theorem probe_upper_midpoint :
    (∀ L R : Nat, 2 ^ 127 ≤ L → L < R → R ≤ 2 ^ 128 - 1 →
      probe L R = (L + R + 1) / 2 ∧
      ((L + R) % 2 = 0 → probe L R = (L + R) / 2) ∧
      ((L + R) % 2 = 1 → probe L R = (L + R) / 2 + 1)) ∧
    probe (2 ^ 127) (2 ^ 127 + 1) = 2 ^ 127 + 1 ∧
    (∀ (L : Nat) (v : Int), 2 ^ 127 ≤ L → L + 1 ≤ 2 ^ 128 - 1 →
      (bsStep L (L + 1) v).1 = (bsStep L (L + 1) v).2) := by
  refine ⟨?_, by decide, ?_⟩
  · intro L R hL hLR hR
    have hpe := probe_eq hL hLR hR
    exact ⟨hpe, by omega, by omega⟩
  · intro L v hL hR
    have hpe := probe_eq hL (by omega) hR
    by_cases hvs : (1 : Int) ≤ v
    · simp [bsStep, hvs]
      omega
    · simp [bsStep, hvs]
      omega

/-- Witness for claim C6: the midpoint parts at range [2^127, 2^127 + 10]
and the strict-progress part at the adjacent range [2^127, 2^127 + 1]. -/
theorem probe_upper_midpoint_witness :
    (probe (2 ^ 127) (2 ^ 127 + 10) = (2 ^ 127 + (2 ^ 127 + 10) + 1) / 2 ∧
      ((2 ^ 127 + (2 ^ 127 + 10)) % 2 = 0 →
        probe (2 ^ 127) (2 ^ 127 + 10) = (2 ^ 127 + (2 ^ 127 + 10)) / 2) ∧
      ((2 ^ 127 + (2 ^ 127 + 10)) % 2 = 1 →
        probe (2 ^ 127) (2 ^ 127 + 10) = (2 ^ 127 + (2 ^ 127 + 10)) / 2 + 1)) ∧
    (bsStep (2 ^ 127) (2 ^ 127 + 1) 0).1 = (bsStep (2 ^ 127) (2 ^ 127 + 1) 0).2 :=
  ⟨probe_upper_midpoint.1 (2 ^ 127) (2 ^ 127 + 10) (by norm_num) (by norm_num) (by norm_num),
   probe_upper_midpoint.2.2 (2 ^ 127) 0 (by norm_num) (by norm_num)⟩

/-- Claim C7: every probe value the driver queries lies in the 128-bit
window [2^127, 2^128 - 1]; a bit-length shortfall of the raw midpoint can
only arise at the boundary L = 2^127, where the code clamps the midpoint
up with max against 2^127 before querying. -/
theorem probes_in_window :
    (∀ (oracle : Oracle), ∀ q ∈ (binary_search_secret oracle).queries,
      2 ^ 127 ≤ q ∧ q ≤ 2 ^ 128 - 1) ∧
    (∀ L R : Nat, 2 ^ 127 ≤ L → L < R → R ≤ 2 ^ 128 - 1 →
      bit_length ((L + R + 1) / 2) ≠ 128 →
      L = 2 ^ 127 ∧ probe L R = max ((L + R + 1) / 2) (2 ^ 127)) := by
  constructor
  · intro oracle q hq
    exact bsLoop_queries oracle 2002 _ _ 0 (le_refl _) (le_refl _) q hq
  · intro L R hL hLR hR hbl
    have hpow : (2 : Nat) ^ 128 = 2 * 2 ^ 127 := by ring
    exact absurd (bit_length_eq_128 (by omega) (by omega)) hbl

/-- Witness for claim C7: the single probe issued by a run against an
oracle replying letters only lies in the window. -/
theorem probes_in_window_witness :
    2 ^ 127 ≤ probe (2 ^ 127) (2 ^ 128 - 1) ∧
    probe (2 ^ 127) (2 ^ 128 - 1) ≤ 2 ^ 128 - 1 :=
  probes_in_window.1 (fun _ _ => "x") (probe (2 ^ 127) (2 ^ 128 - 1)) (by decide)

/-- Counterexample to claim C8 as stated: in local mode, when the search
fails (here: the oracle replies letters, so the first reply is
unparseable), main returns without ever terminating the spawned process,
so this failure path releases the Session zero times, not once. -/
theorem session_release_cex :
    (binary_search_secret (fun _ _ => "x")).result = none ∧
    (mainLocal (fun _ _ => "x")).count Event.terminateProc = 0 := by
  constructor <;> decide

/-- Claim C8 as amended: in remote mode the socket is closed exactly once
on every path, via the finally cleanup; in local mode the process is
terminated exactly once on the success path, and zero times when the
search fails. -/
theorem session_release_paths (oracle : Oracle) :
    (mainRemote oracle).count Event.closeSession = 1 ∧
    (mainLocal oracle).count Event.terminateProc =
      (if ((binary_search_secret oracle).result).isSome then 1 else 0) := by
  rcases h : (binary_search_secret oracle).result with _ | s
  · have h1 : mainRemote oracle = [Event.openRemote, Event.closeSession] := by
      simp [mainRemote, h]
    have h2 : mainLocal oracle = [Event.startLocal] := by
      simp [mainLocal, h]
    rw [h1, h2]
    decide
  · have h1 : mainRemote oracle = [Event.openRemote, Event.submitGuess, Event.closeSession] := by
      simp [mainRemote, h]
    have h2 : mainLocal oracle = [Event.startLocal, Event.submitGuess, Event.terminateProc] := by
      simp [mainLocal, h]
    rw [h1, h2]
    refine ⟨by decide, ?_⟩
    simp only [Option.isSome_some, if_true]
    decide

/-- Claim C9: against any oracle whose replies always parse, truthful or
not, the loop terminates within at most 127 iterations, so neither the
2000-step abort nor any other failure branch is ever reached. -/
theorem loop_terminates_127 (oracle : Oracle)
    (hp : ∀ s p, parse_int_from_text (oracle s p) ≠ none) :
    ((binary_search_secret oracle).result).isSome ∧
    (binary_search_secret oracle).steps ≤ 127 := by
  have hpow : (2 : Nat) ^ 128 = 2 * 2 ^ 127 := by ring
  simp only [binary_search_secret]
  obtain ⟨n, hn, hres, hst⟩ := bsLoop_parseable oracle hp 127 2002
    (2 ^ 127) (2 ^ 128 - 1) 0 (le_refl _) (le_refl _) (by omega) (by omega) (by omega)
    (by norm_num)
  exact ⟨hres, by omega⟩

/-- Witness for claim C9 at the untruthful but always-parseable oracle
that replies 0 to every query. -/
theorem loop_terminates_127_witness :
    ((binary_search_secret (fun _ _ => "0")).result).isSome ∧
    (binary_search_secret (fun _ _ => "0")).steps ≤ 127 :=
  loop_terminates_127 (fun _ _ => "0")
    (by intro s p; show parse_int_from_text "0" ≠ none; decide)

/-- Claim C10: the parser extracts the first maximal digit run even inside
a longer word or a non-integer numeral, with an immediately preceding
minus sign when present: 123 for abc123def, 3 for 3.14, -7 for a-7b. -/
theorem parse_embedded_runs :
    parse_int_from_text "abc123def" = some 123 ∧
    parse_int_from_text "3.14" = some 3 ∧
    parse_int_from_text "a-7b" = some (-7) := by
  refine ⟨by decide, by decide, by decide⟩

end OracleBS
